import Mathlib

/-!
Verification of the credential-pool allocator (`src/key-pool.js`,
`KeyPoolManager`) and the single-active-session guard
(`userAuthMiddleware` together with the db helpers `findAndValidateKey`
and `incrementKeyUsage` in `src/index.js` / `src/db.js`).

Timestamps are modelled as `Int` milliseconds (JavaScript `Date.now()`
arithmetic on numbers), pools as association lists in the insertion
order of the JavaScript `Map`, and the token database as the list
`db.data.keys`.
-/

/-- `find?` locates the head of the suffix when everything before it fails
the predicate and the head satisfies it. -/
theorem find_first_of_split {α : Type} (p : α → Bool) (pre : List α) (x : α) (post : List α)
    (hpre : ∀ e ∈ pre, p e = false) (hx : p x = true) :
    List.find? p (pre ++ x :: post) = some x := by
  induction pre with
  | nil => simp [List.find?, hx]
  | cons e rest ih =>
    have he : p e = false := hpre e (by simp)
    simp only [List.cons_append, List.find?, he]
    exact ih (fun e' h' => hpre e' (by simp [h']))

/-- A successful `find?` splits the list at the found element, with every
earlier element failing the predicate. -/
theorem find_eq_some_split {α : Type} (p : α → Bool) (l : List α) (x : α)
    (h : List.find? p l = some x) :
    ∃ pre post, l = pre ++ x :: post ∧ (∀ e ∈ pre, p e = false) ∧ p x = true := by
  induction l with
  | nil => simp [List.find?] at h
  | cons e rest ih =>
    by_cases hp : p e = true
    · refine ⟨[], rest, ?_, by simp, ?_⟩
      · simp only [List.find?, hp] at h
        simp [← Option.some_inj.mp h]
      · simp only [List.find?, hp] at h
        rw [← Option.some_inj.mp h]; exact hp
    · have hp' : p e = false := by revert hp; cases p e <;> simp
      simp only [List.find?, hp'] at h
      obtain ⟨pre, post, hl, hpre, hx⟩ := ih h
      exact ⟨e :: pre, post, by simp [hl], by
        intro e' he'
        rcases List.mem_cons.mp he' with h1 | h1
        · rw [h1]; exact hp'
        · exact hpre e' h1, hx⟩

namespace KeyPool

/-- The `status` field of a pool entry: `'available'`, `'in_use'`, `'error'`. -/
inductive KeyStatus where
  | available
  | in_use
  | error
deriving DecidableEq

/-- The per-key state object created in `loadKeys` and mutated by
`getKeyForUser` / `reportError`. -/
structure KeyState where
  status : KeyStatus
  user : Option String
  lastUsed : Int
  errorSince : Int
deriving DecidableEq

/-- The pool: the `Map` of `KeyPoolManager`, in insertion order. -/
abbrev Pool := List (String × KeyState)

/-- `KEY_LOCK_DURATION = 2 * 60 * 1000` (2 minutes). -/
def KEY_LOCK_DURATION : Int := 2 * 60 * 1000

/-- `KEY_ERROR_COOLDOWN = 5 * 60 * 1000` (5 minutes). -/
def KEY_ERROR_COOLDOWN : Int := 5 * 60 * 1000

/-- The state a key receives when first loaded in `loadKeys`. -/
def initialState : KeyState :=
  { status := .available, user := none, lastUsed := 0, errorSince := 0 }

/-- `loadKeys`: insert each key with the initial state, skipping keys
already present (`!this.keys.has(key)`); `Map` keeps insertion order. -/
def loadKeys (keys : List String) : Pool :=
  keys.foldl
    (fun acc k => if acc.any (fun e => e.1 == k) then acc else acc ++ [(k, initialState)])
    []

/-- The phase-1 scan condition of `getKeyForUser`:
`state.user === userId && state.status === 'in_use'`. -/
def isAffine (userId : String) (e : String × KeyState) : Bool :=
  e.2.user == some userId && e.2.status == .in_use

/-- The phase-2 scan condition of `getKeyForUser`:
`status === 'available' || (status === 'in_use' && isStale) || (status === 'error' && isErrorExpired)`
with `isStale = now - lastUsed > KEY_LOCK_DURATION` and
`isErrorExpired = now - errorSince > KEY_ERROR_COOLDOWN`. -/
def isEligible (now : Int) (e : String × KeyState) : Bool :=
  e.2.status == .available
    || (e.2.status == .in_use && decide (now - e.2.lastUsed > KEY_LOCK_DURATION))
    || (e.2.status == .error && decide (now - e.2.errorSince > KEY_ERROR_COOLDOWN))

/-- Mutate the first entry satisfying `p` by `f`, as the JavaScript loops
do when they mutate the state object of the entry they stopped at. -/
def setFirst (p : String × KeyState → Bool) (f : KeyState → KeyState) : Pool → Pool
  | [] => []
  | e :: rest => if p e then (e.1, f e.2) :: rest else e :: setFirst p f rest

/-- `getKeyForUser(userId)` at time `now`: affinity fast path (refresh
`lastUsed`), otherwise assign the first eligible key (`status = 'in_use'`,
`user = userId`, `lastUsed = now`, `errorSince = 0`), otherwise `null`.
Returns the result together with the pool after the call. -/
def getKeyForUser (pool : Pool) (userId : String) (now : Int) : Option String × Pool :=
  match pool.find? (isAffine userId) with
  | some e => (some e.1, setFirst (isAffine userId) (fun st => { st with lastUsed := now }) pool)
  | none =>
    match pool.find? (isEligible now) with
    | some e =>
      (some e.1,
        setFirst (isEligible now)
          (fun _st => { status := .in_use, user := some userId, lastUsed := now, errorSince := 0 })
          pool)
    | none => (none, pool)

/-- `reportError(apiKey)` at time `now`: if the key is in the pool, set
`status = 'error'`, `user = null`, `errorSince = now`; otherwise no-op. -/
def reportError (pool : Pool) (apiKey : String) (now : Int) : Pool :=
  if pool.any (fun e => e.1 == apiKey) then
    setFirst (fun e => e.1 == apiKey)
      (fun st => { st with status := .error, user := none, errorSince := now })
      pool
  else pool

/-- One external operation on the pool singleton. -/
inductive PoolOp where
  | acquire (userId : String) (now : Int)
  | report (apiKey : String) (now : Int)

/-- Apply one operation to the pool (discarding `getKeyForUser`'s result). -/
def applyOp (pool : Pool) : PoolOp → Pool
  | .acquire u now => (getKeyForUser pool u now).2
  | .report k now => reportError pool k now

/-- Run a sequence of operations from a starting pool. -/
def runOps (pool : Pool) (ops : List PoolOp) : Pool :=
  ops.foldl applyOp pool

/-- The status of the entry stored under key `k` (the `Map` lookup). -/
def statusOf (pool : Pool) (k : String) : Option KeyStatus :=
  (pool.find? (fun e => e.1 == k)).map (fun e => e.2.status)

/-- Number of pool entries currently `in_use` and assigned to `u`. -/
def inUseCount (pool : Pool) (u : String) : Nat :=
  (pool.filter (isAffine u)).length

/-- Side condition describing the only call site of `reportError`
(`src/index.js`): the reported key was just returned by `getKeyForUser`,
so at the moment of the report its stored status is not `available`
(an assigned key's status is `in_use` or `error`, never `available` again). -/
def okOp (pool : Pool) : PoolOp → Prop
  | .acquire _ _ => True
  | .report k _ => statusOf pool k ≠ some .available

/-- A trace is valid when every `report` respects `okOp` at its point of use. -/
def ValidOps (pool : Pool) : List PoolOp → Prop
  | [] => True
  | op :: rest => okOp pool op ∧ ValidOps (applyOp pool op) rest

end KeyPool

namespace SessionGuard

/-- `LOCK_DURATION = 30 * 1000` (30 seconds). -/
def LOCK_DURATION : Int := 30 * 1000

/-- A stored access-token record (`db.data.keys` entry), restricted to the
fields read or written by the middleware and the db helpers. -/
structure KeyRecord where
  keyHash : String
  expirationDate : Int
  requestCount : Nat
  lastUsedIp : Option String
  lastUsedUserAgent : Option String
  lastUsedTime : Option Int
deriving DecidableEq

/-- The token database `db.data.keys`. -/
abbrev TokenDb := List KeyRecord

/-- The `appCache` (NodeCache), keyed by the plaintext token. -/
abbrev Cache := List (String × KeyRecord)

/-- The outcome of `userAuthMiddleware` on one request. -/
inductive AuthResult where
  | allowed (record : KeyRecord)
  | invalidToken
  | expired
  | deviceConflict
deriving DecidableEq

/-- `findAndValidateKey`: scan `db.data.keys` and return the first record
whose `keyHash` matches the plaintext key under `bcrypt.compare`
(modelled as an arbitrary comparison function `compare`). -/
def findAndValidateKey (compare : String → String → Bool) (db : TokenDb)
    (key : String) : Option KeyRecord :=
  db.find? (fun r => compare key r.keyHash)

/-- The record update performed by `incrementKeyUsage`. -/
def updateRecord (r : KeyRecord) (ip userAgent : String) (now : Int) : KeyRecord :=
  { r with
      requestCount := r.requestCount + 1
      lastUsedIp := some ip
      lastUsedUserAgent := some userAgent
      lastUsedTime := some now }

/-- `incrementKeyUsage`: find the first record with the given `keyHash`;
if found, bump `requestCount`, set the usage fingerprint and timestamp,
and return the updated record together with the updated database;
otherwise return `null` and leave the database as is. -/
def incrementKeyUsage (db : TokenDb) (keyHash ip userAgent : String) (now : Int) :
    Option KeyRecord × TokenDb :=
  match db with
  | [] => (none, [])
  | r :: rest =>
    if r.keyHash == keyHash then
      let r' := updateRecord r ip userAgent now
      (some r', r' :: rest)
    else
      let step := incrementKeyUsage rest keyHash ip userAgent now
      (step.1, r :: step.2)

/-- `appCache.set(providedKey, updatedKeyData)`: overwrite the entry for
this token. -/
def cacheSet (cache : Cache) (key : String) (v : KeyRecord) : Cache :=
  (key, v) :: cache.filter (fun e => !(e.1 == key))

/-- The middleware's `isLocked` condition:
`lastUsed && (now - lastUsed) < LOCK_DURATION` (a missing `lastUsedTime`
means never used, hence not locked). -/
def isLocked (keyData : KeyRecord) (now : Int) : Bool :=
  match keyData.lastUsedTime with
  | some t => decide (now - t < LOCK_DURATION)
  | none => false

/-- The middleware's `isDifferentDevice` condition:
`lastUsedIp !== currentIp || lastUsedUserAgent !== currentUserAgent`. -/
def isDifferentDevice (keyData : KeyRecord) (ip userAgent : String) : Bool :=
  !(keyData.lastUsedIp == some ip) || !(keyData.lastUsedUserAgent == some userAgent)

/-- `userAuthMiddleware` for a request presenting `token` from
fingerprint `(ip, userAgent)` at time `now`: validate the token, reject
`expired` if `now > expirationDate`, reject `deviceConflict` if the
record was used less than `LOCK_DURATION` ago from a different
fingerprint, otherwise record the usage (`incrementKeyUsage`) and refresh
the side cache (only when the update found the record, matching
`if (updatedKeyData)`; `req.keyData = updatedKeyData || keyData`).
Returns the outcome together with the database and cache after the call. -/
def authorize (compare : String → String → Bool) (db : TokenDb) (cache : Cache)
    (token ip userAgent : String) (now : Int) : AuthResult × TokenDb × Cache :=
  match findAndValidateKey compare db token with
  | none => (.invalidToken, db, cache)
  | some keyData =>
    if now > keyData.expirationDate then
      (.expired, db, cache)
    else if isLocked keyData now && isDifferentDevice keyData ip userAgent then
      (.deviceConflict, db, cache)
    else
      match incrementKeyUsage db keyData.keyHash ip userAgent now with
      | (some updated, db2) => (.allowed updated, db2, cacheSet cache token updated)
      | (none, db2) => (.allowed keyData, db2, cache)

/-- A concrete stand-in for `bcrypt.compare` used to instantiate theorems:
a token matches a stored hash when they are equal. -/
def sampleCompare : String → String → Bool := fun t h => t == h

/-- A concrete freshly issued record used to instantiate theorems. -/
def sampleRecord : KeyRecord :=
  { keyHash := "tok", expirationDate := 1000000, requestCount := 0,
    lastUsedIp := none, lastUsedUserAgent := none, lastUsedTime := none }

end SessionGuard

namespace KeyPool

theorem setFirst_of_split (p : String × KeyState → Bool) (f : KeyState → KeyState)
    (pre : Pool) (x : String × KeyState) (post : Pool)
    (hpre : ∀ e ∈ pre, p e = false) (hx : p x = true) :
    setFirst p f (pre ++ x :: post) = pre ++ (x.1, f x.2) :: post := by
  induction pre with
  | nil => simp [setFirst, hx]
  | cons e rest ih =>
    have he : p e = false := hpre e (by simp)
    simp only [List.cons_append, setFirst, he]
    simp only [Bool.false_eq_true, if_false, List.cons.injEq, true_and]
    exact ih (fun e' h' => hpre e' (by simp [h']))

theorem setFirst_map_fst (p : String × KeyState → Bool) (f : KeyState → KeyState)
    (pool : Pool) :
    (setFirst p f pool).map Prod.fst = pool.map Prod.fst := by
  induction pool with
  | nil => rfl
  | cons e rest ih =>
    by_cases hp : p e = true
    · simp [setFirst, hp]
    · have hp' : p e = false := by revert hp; cases p e <;> simp
      simp [setFirst, hp', ih]

theorem setFirst_setFirst (p : String × KeyState → Bool) (f : KeyState → KeyState)
    (pool : Pool)
    (hkey : ∀ e : String × KeyState, p (e.1, f e.2) = p e)
    (hidem : ∀ st, f (f st) = f st) :
    setFirst p f (setFirst p f pool) = setFirst p f pool := by
  induction pool with
  | nil => rfl
  | cons e rest ih =>
    by_cases hp : p e = true
    · simp [setFirst, hp, hkey e, hidem]
    · have hp' : p e = false := by revert hp; cases p e <;> simp
      simp [setFirst, hp', ih]

theorem any_key_of_mem (pool : Pool) (k : String) (st : KeyState)
    (h : (k, st) ∈ pool) : pool.any (fun e => e.1 == k) = true := by
  exact List.any_eq_true.mpr ⟨(k, st), h, by simp⟩

/-- `reportError` is idempotent when repeated at the same instant, on any
pool and any key. -/
theorem reportError_idem (pool : Pool) (k : String) (t : Int) :
    reportError (reportError pool k t) k t = reportError pool k t := by
  unfold reportError
  by_cases h : pool.any (fun e => e.1 == k) = true
  · have hkeys :
        (setFirst (fun e => e.1 == k)
          (fun st => { st with status := .error, user := none, errorSince := t})
          pool).any (fun e => e.1 == k) = true := by
      rcases List.any_eq_true.mp h with ⟨e, hmem, he⟩
      have : e.1 ∈ (setFirst (fun e => e.1 == k)
          (fun st => { st with status := .error, user := none, errorSince := t})
          pool).map Prod.fst := by
        rw [setFirst_map_fst]
        exact List.mem_map.mpr ⟨e, hmem, rfl⟩
      rcases List.mem_map.mp this with ⟨e', hmem', he'⟩
      exact List.any_eq_true.mpr ⟨e', hmem', by rw [he']; exact he⟩
    rw [if_pos h, if_pos hkeys]
    exact setFirst_setFirst _ _ _ (fun e => rfl) (fun st => rfl)
  · rw [if_neg h, if_neg h]

theorem reportError_of_split (pre : Pool) (k : String) (st : KeyState) (post : Pool)
    (t : Int) (hpre : ∀ e ∈ pre, e.1 ≠ k) :
    reportError (pre ++ (k, st) :: post) k t
      = pre ++ (k, { st with status := .error, user := none, errorSince := t }) :: post := by
  unfold reportError
  have hany : (pre ++ (k, st) :: post).any (fun e => e.1 == k) = true :=
    any_key_of_mem _ k st (by simp)
  rw [if_pos hany]
  exact setFirst_of_split _ _ pre (k, st) post
    (fun e he => by simpa using hpre e he) (by simp)

/-- C9: for every credential in the pool, `release_on_error` (`reportError`)
unconditionally sets `status` to `Faulty` (`'error'`), clears
`assignedCaller` (`user`), and sets `faultyAt` (`errorSince`) to `now`,
leaving every other entry untouched; and calling it twice in succession on
the same credential is idempotent, leaving the pool as after one call. -/
theorem report_error_unconditional_and_idempotent
    (pre : Pool) (k : String) (st : KeyState) (post : Pool) (t : Int)
    (hpre : ∀ e ∈ pre, e.1 ≠ k) :
    reportError (pre ++ (k, st) :: post) k t
      = pre ++ (k, { st with status := .error, user := none, errorSince := t }) :: post
    ∧ ∀ pool : Pool, reportError (reportError pool k t) k t = reportError pool k t := by
  exact ⟨reportError_of_split pre k st post t hpre, fun pool => reportError_idem pool k t⟩

/-- Witness for C9 at a concrete two-credential pool. -/
theorem report_error_unconditional_and_idempotent_witness :
    reportError
        [("k0", initialState), ("k1", ⟨.in_use, some "A", 100, 0⟩)] "k1" 50
      = [("k0", initialState), ("k1", ⟨.error, none, 100, 50⟩)]
    ∧ ∀ pool : Pool, reportError (reportError pool "k1" 50) "k1" 50
        = reportError pool "k1" 50 :=
  report_error_unconditional_and_idempotent
    [("k0", initialState)] "k1" ⟨.in_use, some "A", 100, 0⟩ [] 50 (by decide)

/-- C10: whenever `acquire` (`getKeyForUser`) returns `Unavailable`
(`null`), the pool state is left completely unchanged. -/
theorem acquire_unavailable_no_side_effects (pool : Pool) (u : String) (now : Int)
    (h : (getKeyForUser pool u now).1 = none) :
    (getKeyForUser pool u now).2 = pool := by
  unfold getKeyForUser at h ⊢
  cases h1 : pool.find? (isAffine u) with
  | some e => simp [h1] at h
  | none =>
    simp only [h1] at h ⊢
    cases h2 : pool.find? (isEligible now) with
    | some e => simp [h2] at h
    | none => simp only [h2]

/-- Witness for C10: an exhausted single-credential pool. -/
theorem acquire_unavailable_no_side_effects_witness :
    (getKeyForUser [("k1", ⟨.in_use, some "A", 100, 0⟩)] "B" 150).2
      = [("k1", ⟨.in_use, some "A", 100, 0⟩)] :=
  acquire_unavailable_no_side_effects
    [("k1", ⟨.in_use, some "A", 100, 0⟩)] "B" 150 (by decide)

/-- C2: a caller whose `in_use` credential is the first one assigned to it
in iteration order gets exactly that credential back from `acquire`, with
`lastUsed` refreshed to `now` and no other entry touched — even when
earlier credentials would be assignable — and repeated `acquire` calls keep
returning the same credential. -/
theorem acquire_affinity (pre : Pool) (k : String) (st : KeyState) (post : Pool)
    (caller : String) (now : Int)
    (hpre : ∀ e ∈ pre, isAffine caller e = false)
    (huser : st.user = some caller) (hstatus : st.status = .in_use) :
    getKeyForUser (pre ++ (k, st) :: post) caller now
      = (some k, pre ++ (k, { st with lastUsed := now }) :: post)
    ∧ ∀ now2 : Int,
        (getKeyForUser (pre ++ (k, { st with lastUsed := now }) :: post) caller now2).1
          = some k := by
  have haff : isAffine caller (k, st) = true := by
    simp [isAffine, huser, hstatus]
  have hfind := find_first_of_split (isAffine caller) pre (k, st) post hpre haff
  constructor
  · unfold getKeyForUser
    rw [hfind]
    rw [setFirst_of_split (isAffine caller) _ pre (k, st) post hpre haff]
  · intro now2
    have haff2 : isAffine caller (k, { st with lastUsed := now }) = true := by
      simp [isAffine, huser, hstatus]
    have hfind2 := find_first_of_split (isAffine caller) pre
      (k, { st with lastUsed := now }) post hpre haff2
    unfold getKeyForUser
    rw [hfind2]

/-- Witness for C2: the affinity path wins over an earlier available
credential, and a repeated call returns the same credential. -/
theorem acquire_affinity_witness :
    getKeyForUser
        [("k0", initialState), ("k1", ⟨.in_use, some "A", 100, 0⟩)] "A" 200
      = (some "k1", [("k0", initialState), ("k1", ⟨.in_use, some "A", 200, 0⟩)])
    ∧ ∀ now2 : Int,
        (getKeyForUser
          [("k0", initialState), ("k1", ⟨.in_use, some "A", 200, 0⟩)] "A" now2).1
          = some "k1" :=
  acquire_affinity [("k0", initialState)] "k1" ⟨.in_use, some "A", 100, 0⟩ []
    "A" 200 (by decide) rfl rfl

theorem find_affine_none (pool : Pool) (caller : String)
    (hnone : ∀ e ∈ pool, e.2.user ≠ some caller) :
    pool.find? (isAffine caller) = none := by
  refine List.find?_eq_none.mpr ?_
  intro e he hcontra
  have := (Bool.and_eq_true _ _).mp hcontra
  exact hnone e he (by simpa using this.1)

theorem fresh_in_use_not_eligible (now : Int) (e : String × KeyState)
    (hstatus : e.2.status = .in_use)
    (hfresh : now - e.2.lastUsed ≤ KEY_LOCK_DURATION) :
    isEligible now e = false := by
  simp [isEligible, hstatus]
  omega

/-- C1: with every credential `in_use` under a fresh lease, `acquire` for a
caller holding none of them returns `Unavailable` and leaves the pool
unchanged; and as soon as one credential's lease is strictly older than
`KEY_LOCK_DURATION`, the next `acquire` for such a caller returns the first
stale credential in the pool's iteration order. -/
theorem acquire_exhausted_then_stale_reuse (pool : Pool) (caller : String)
    (hall : ∀ e ∈ pool, e.2.status = .in_use)
    (hnone : ∀ e ∈ pool, e.2.user ≠ some caller) :
    (∀ now : Int, (∀ e ∈ pool, now - e.2.lastUsed ≤ KEY_LOCK_DURATION) →
        getKeyForUser pool caller now = (none, pool))
    ∧ (∀ (now : Int) (pre : Pool) (k : String) (st : KeyState) (post : Pool),
        pool = pre ++ (k, st) :: post →
        (∀ e ∈ pre, now - e.2.lastUsed ≤ KEY_LOCK_DURATION) →
        now - st.lastUsed > KEY_LOCK_DURATION →
        (getKeyForUser pool caller now).1 = some k) := by
  constructor
  · intro now hfresh
    have haff := find_affine_none pool caller hnone
    have heli : pool.find? (isEligible now) = none := by
      refine List.find?_eq_none.mpr ?_
      intro e he hcontra
      rw [fresh_in_use_not_eligible now e (hall e he) (hfresh e he)] at hcontra
      exact Bool.false_ne_true hcontra
    unfold getKeyForUser
    rw [haff, heli]
  · intro now pre k st post hsplit hprefresh hstale
    have haff := find_affine_none pool caller hnone
    have hkmem : (k, st) ∈ pool := by rw [hsplit]; simp
    have hkstat : st.status = .in_use := hall (k, st) hkmem
    have hkeli : isEligible now (k, st) = true := by
      simp [isEligible, hkstat]
      omega
    have heli : pool.find? (isEligible now) = some (k, st) := by
      rw [hsplit]
      refine find_first_of_split _ pre (k, st) post ?_ hkeli
      intro e he
      refine fresh_in_use_not_eligible now e ?_ (hprefresh e he)
      exact hall e (by rw [hsplit]; simp [he])
    unfold getKeyForUser
    rw [haff, heli]

/-- Witness for C1 on a two-credential pool: exhausted at `now = 1000`,
first credential reusable once its lease is stale at `now = 120101`. -/
theorem acquire_exhausted_then_stale_reuse_witness :
    getKeyForUser
        [("k1", ⟨.in_use, some "A", 100, 0⟩), ("k2", ⟨.in_use, some "B", 110, 0⟩)]
        "C" 1000
      = (none, [("k1", ⟨.in_use, some "A", 100, 0⟩), ("k2", ⟨.in_use, some "B", 110, 0⟩)])
    ∧ (getKeyForUser
        [("k1", ⟨.in_use, some "A", 100, 0⟩), ("k2", ⟨.in_use, some "B", 110, 0⟩)]
        "C" 120101).1 = some "k1" := by
  have h := acquire_exhausted_then_stale_reuse
    [("k1", ⟨.in_use, some "A", 100, 0⟩), ("k2", ⟨.in_use, some "B", 110, 0⟩)]
    "C" (by decide) (by decide)
  exact ⟨h.1 1000 (by decide),
    h.2 120101 [] "k1" ⟨.in_use, some "A", 100, 0⟩
      [("k2", ⟨.in_use, some "B", 110, 0⟩)] rfl (by decide) (by decide)⟩

/-- C5: after `release_on_error` at time `t`, the credential is quarantined:
while `now - t ≤ KEY_ERROR_COOLDOWN` no `acquire` returns it (and `acquire`
returns `Unavailable` when nothing else is assignable), and once
`now - t > KEY_ERROR_COOLDOWN` the credential is eligible for assignment
again. -/
theorem fault_cooldown_quarantine
    (pre : Pool) (k : String) (st : KeyState) (post : Pool) (t : Int)
    (hpre : ∀ e ∈ pre, e.1 ≠ k) (hpost : ∀ e ∈ post, e.1 ≠ k) :
    reportError (pre ++ (k, st) :: post) k t
      = pre ++ (k, { st with status := .error, user := none, errorSince := t }) :: post
    ∧ (∀ (u : String) (now : Int), now - t ≤ KEY_ERROR_COOLDOWN →
        (getKeyForUser
            (pre ++ (k, { st with status := .error, user := none, errorSince := t }) :: post)
            u now).1 ≠ some k)
    ∧ (∀ (u : String) (now : Int), now - t ≤ KEY_ERROR_COOLDOWN →
        (∀ e ∈ pre ++ post, isAffine u e = false ∧ isEligible now e = false) →
        getKeyForUser
            (pre ++ (k, { st with status := .error, user := none, errorSince := t }) :: post)
            u now
          = (none,
              pre ++ (k, { st with status := .error, user := none, errorSince := t }) :: post))
    ∧ (∀ now : Int, now - t > KEY_ERROR_COOLDOWN →
        isEligible now (k, { st with status := .error, user := none, errorSince := t })
          = true) := by
  set st' : KeyState := { st with status := .error, user := none, errorSince := t } with hst'
  have hmem_split : ∀ e ∈ pre ++ (k, st') :: post, e ∈ pre ∨ e = (k, st') ∨ e ∈ post := by
    intro e he
    rcases List.mem_append.mp he with h1 | h1
    · exact Or.inl h1
    · rcases List.mem_cons.mp h1 with h2 | h2
      · exact Or.inr (Or.inl h2)
      · exact Or.inr (Or.inr h2)
  have haff_st' : ∀ u : String, isAffine u (k, st') = false := by
    intro u
    simp [isAffine, hst']
  have heli_st' : ∀ now : Int, now - t ≤ KEY_ERROR_COOLDOWN →
      isEligible now (k, st') = false := by
    intro now hle
    simp [isEligible, hst']
    omega
  refine ⟨reportError_of_split pre k st post t hpre, ?_, ?_, ?_⟩
  · intro u now hle hcontra
    unfold getKeyForUser at hcontra
    cases h1 : (pre ++ (k, st') :: post).find? (isAffine u) with
    | some e =>
      rw [h1] at hcontra
      simp only [Option.some.injEq] at hcontra
      have hek : e.1 = k := by simpa using hcontra
      have hmem := List.mem_of_find?_eq_some h1
      have hpe := List.find?_some h1
      rcases hmem_split e hmem with h2 | h2 | h2
      · exact hpre e h2 hek
      · rw [h2] at hpe
        rw [haff_st' u] at hpe
        exact Bool.false_ne_true hpe
      · exact hpost e h2 hek
    | none =>
      rw [h1] at hcontra
      cases h2 : (pre ++ (k, st') :: post).find? (isEligible now) with
      | some e =>
        rw [h2] at hcontra
        simp only [Option.some.injEq] at hcontra
        have hek : e.1 = k := by simpa using hcontra
        have hmem := List.mem_of_find?_eq_some h2
        have hpe := List.find?_some h2
        rcases hmem_split e hmem with h3 | h3 | h3
        · exact hpre e h3 hek
        · rw [h3] at hpe
          rw [heli_st' now hle] at hpe
          exact Bool.false_ne_true hpe
        · exact hpost e h3 hek
      | none =>
        rw [h2] at hcontra
        simp at hcontra
  · intro u now hle hrest
    have haff : (pre ++ (k, st') :: post).find? (isAffine u) = none := by
      refine List.find?_eq_none.mpr ?_
      intro e he hcontra
      rcases hmem_split e he with h1 | h1 | h1
      · rw [(hrest e (List.mem_append.mpr (Or.inl h1))).1] at hcontra
        exact Bool.false_ne_true hcontra
      · rw [h1, haff_st' u] at hcontra
        exact Bool.false_ne_true hcontra
      · rw [(hrest e (List.mem_append.mpr (Or.inr h1))).1] at hcontra
        exact Bool.false_ne_true hcontra
    have heli : (pre ++ (k, st') :: post).find? (isEligible now) = none := by
      refine List.find?_eq_none.mpr ?_
      intro e he hcontra
      rcases hmem_split e he with h1 | h1 | h1
      · rw [(hrest e (List.mem_append.mpr (Or.inl h1))).2] at hcontra
        exact Bool.false_ne_true hcontra
      · rw [h1, heli_st' now hle] at hcontra
        exact Bool.false_ne_true hcontra
      · rw [(hrest e (List.mem_append.mpr (Or.inr h1))).2] at hcontra
        exact Bool.false_ne_true hcontra
    unfold getKeyForUser
    rw [haff, heli]
  · intro now hgt
    simp [isEligible, hst']
    omega

/-- Witness for C5 at a single-credential pool reported faulty at `t = 200`:
still quarantined at `now = 300000`, eligible again at `now = 300201`. -/
theorem fault_cooldown_quarantine_witness :
    reportError [("k1", ⟨.in_use, some "A", 100, 0⟩)] "k1" 200
      = [("k1", ⟨.error, none, 100, 200⟩)]
    ∧ (getKeyForUser [("k1", ⟨.error, none, 100, 200⟩)] "B" 300000).1 ≠ some "k1"
    ∧ getKeyForUser [("k1", ⟨.error, none, 100, 200⟩)] "B" 300000
        = (none, [("k1", ⟨.error, none, 100, 200⟩)])
    ∧ isEligible 300201 ("k1", ⟨.error, none, 100, 200⟩) = true := by
  have h := fault_cooldown_quarantine [] "k1" ⟨.in_use, some "A", 100, 0⟩ [] 200
    (by simp) (by simp)
  exact ⟨h.1, h.2.1 "B" 300000 (by decide), h.2.2.1 "B" 300000 (by decide) (by simp),
    h.2.2.2 300201 (by decide)⟩

theorem statusOf_cons_key (e : String × KeyState) (rest : Pool) (k : String)
    (hk : (e.1 == k) = true) : statusOf (e :: rest) k = some e.2.status := by
  simp [statusOf, List.find?, hk]

theorem statusOf_cons_ne (e : String × KeyState) (rest : Pool) (k : String)
    (hk : (e.1 == k) = false) : statusOf (e :: rest) k = statusOf rest k := by
  simp [statusOf, List.find?, hk]

theorem statusOf_setFirst (p : String × KeyState → Bool) (f : KeyState → KeyState)
    (pool : Pool) (k : String) :
    statusOf (setFirst p f pool) k = statusOf pool k ∨
    ∃ st, p (k, st) = true ∧ statusOf (setFirst p f pool) k = some (f st).status
      ∧ statusOf pool k = some st.status := by
  induction pool with
  | nil => left; rfl
  | cons e rest ih =>
    by_cases hp : p e = true
    · have hstep : setFirst p f (e :: rest) = (e.1, f e.2) :: rest := by
        simp [setFirst, hp]
      by_cases hk : (e.1 == k) = true
      · right
        have hek : e.1 = k := by simpa using hk
        refine ⟨e.2, ?_, ?_, ?_⟩
        · rw [← hek]; exact hp
        · rw [hstep, statusOf_cons_key (e.1, f e.2) rest k hk]
        · rw [statusOf_cons_key e rest k hk]
      · left
        have hk' : (e.1 == k) = false := by revert hk; cases e.1 == k <;> simp
        rw [hstep, statusOf_cons_ne (e.1, f e.2) rest k hk',
          statusOf_cons_ne e rest k hk']
    · have hp' : p e = false := by revert hp; cases p e <;> simp
      have hstep : setFirst p f (e :: rest) = e :: setFirst p f rest := by
        simp [setFirst, hp']
      by_cases hk : (e.1 == k) = true
      · left
        rw [hstep, statusOf_cons_key e _ k hk, statusOf_cons_key e rest k hk]
      · have hk' : (e.1 == k) = false := by revert hk; cases e.1 == k <;> simp
        rw [hstep, statusOf_cons_ne e _ k hk', statusOf_cons_ne e rest k hk']
        exact ih

theorem status_error_step (pool : Pool) (op : PoolOp) (k : String)
    (hok : okOp pool op)
    (h : statusOf (applyOp pool op) k = some .error) :
    statusOf pool k = some .error ∨ statusOf pool k = some .in_use := by
  cases op with
  | acquire u now =>
    have happ : applyOp pool (.acquire u now) = (getKeyForUser pool u now).2 := rfl
    rw [happ] at h
    cases h1 : pool.find? (isAffine u) with
    | some e =>
      have hsnd : (getKeyForUser pool u now).2
          = setFirst (isAffine u) (fun st => { st with lastUsed := now }) pool := by
        unfold getKeyForUser
        rw [h1]
      rw [hsnd] at h
      rcases statusOf_setFirst (isAffine u) (fun st => { st with lastUsed := now }) pool k
        with h2 | ⟨st, _, h3, h4⟩
      · left; rw [← h2]; exact h
      · left
        rw [h3] at h
        simp only [Option.some.injEq] at h
        rw [h4]
        exact congrArg some h
    | none =>
      cases h2 : pool.find? (isEligible now) with
      | some e =>
        have hsnd : (getKeyForUser pool u now).2
            = setFirst (isEligible now)
                (fun _st =>
                  { status := .in_use, user := some u, lastUsed := now, errorSince := 0 })
                pool := by
          unfold getKeyForUser
          rw [h1, h2]
        rw [hsnd] at h
        rcases statusOf_setFirst (isEligible now)
            (fun _st => { status := .in_use, user := some u, lastUsed := now, errorSince := 0 })
            pool k with h3 | ⟨st, _, h4, h5⟩
        · left; rw [← h3]; exact h
        · rw [h4] at h
          simp at h
      | none =>
        have hsnd : (getKeyForUser pool u now).2 = pool := by
          unfold getKeyForUser
          rw [h1, h2]
        rw [hsnd] at h
        left; exact h
  | report k' now =>
    have happ : applyOp pool (.report k' now) = reportError pool k' now := rfl
    rw [happ] at h
    unfold reportError at h
    by_cases hany : pool.any (fun e => e.1 == k') = true
    · rw [if_pos hany] at h
      rcases statusOf_setFirst (fun e => e.1 == k')
          (fun st => { st with status := .error, user := none, errorSince := now })
          pool k with h2 | ⟨st, hpk, _, h4⟩
      · left; rw [← h2]; exact h
      · have hkk : k = k' := by simpa using hpk
        have hok' : statusOf pool k' ≠ some .available := hok
        rw [← hkk] at hok'
        rw [h4] at hok' ⊢
        cases hst : st.status with
        | available => rw [hst] at hok'; exact absurd rfl hok'
        | in_use => right; rfl
        | error => left; rfl
    · rw [if_neg hany] at h
      left; exact h

theorem runOps_error_origin :
    ∀ (ops : List PoolOp) (pool : Pool), ValidOps pool ops →
      ∀ k, statusOf (runOps pool ops) k = some .error →
        statusOf pool k = some .error ∨
        ∃ i, statusOf (runOps pool (ops.take i)) k = some .in_use := by
  intro ops
  induction ops with
  | nil => intro pool _ k h; left; exact h
  | cons op rest ih =>
    intro pool hvalid k h
    obtain ⟨hok, hrest⟩ := hvalid
    rcases ih (applyOp pool op) hrest k h with h1 | ⟨i, hi⟩
    · rcases status_error_step pool op k hok h1 with h2 | h2
      · exact Or.inl h2
      · exact Or.inr ⟨0, h2⟩
    · exact Or.inr ⟨i + 1, hi⟩

theorem loadKeys_state (ks : List String) : ∀ e ∈ loadKeys ks, e.2 = initialState := by
  suffices h : ∀ (acc : Pool), (∀ e ∈ acc, e.2 = initialState) →
      ∀ e ∈ ks.foldl
        (fun acc k =>
          if acc.any (fun e => e.1 == k) then acc else acc ++ [(k, initialState)]) acc,
        e.2 = initialState by
    exact h [] (by simp)
  induction ks with
  | nil => intro acc hacc; simpa using hacc
  | cons k rest ih =>
    intro acc hacc
    simp only [List.foldl_cons]
    apply ih
    by_cases hany : acc.any (fun e => e.1 == k) = true
    · rw [if_pos hany]; exact hacc
    · rw [if_neg hany]
      intro e he
      rcases List.mem_append.mp he with h1 | h1
      · exact hacc e h1
      · simp at h1
        rw [h1]

theorem statusOf_loadKeys (ks : List String) (k : String) :
    statusOf (loadKeys ks) k = none ∨ statusOf (loadKeys ks) k = some .available := by
  unfold statusOf
  cases h : (loadKeys ks).find? (fun e => e.1 == k) with
  | none => left; rfl
  | some e =>
    right
    have := loadKeys_state ks e (List.mem_of_find?_eq_some h)
    simp [this, initialState]

/-- C6 counterexample: the claim fails as stated — on a freshly loaded pool,
`release_on_error` applied to a still-`Available` credential moves it
directly to `Faulty` with no intervening `InUse` state. -/
theorem faulty_without_in_use_counterexample :
    statusOf (loadKeys ["k1"]) "k1" = some KeyStatus.available
    ∧ statusOf (loadKeys ["k1"]) "k1" ≠ some KeyStatus.in_use
    ∧ statusOf (runOps (loadKeys ["k1"]) [PoolOp.report "k1" 5]) "k1"
        = some KeyStatus.error :=
  ⟨by decide, by decide, by decide⟩

/-- C6 (amended): restrict `release_on_error` to credentials whose status is
not `Available` at the moment of the report — which is what the only call
site guarantees, since it only reports a credential just returned by
`acquire` and an assigned credential is never `Available` again. Under every
such operation sequence from the loaded pool, a `Faulty` (`'error'`)
credential was `InUse` at some earlier point of the trace; in particular no
credential moves directly from `Available` to `Faulty`. -/
theorem faulty_preceded_by_in_use (ks : List String) (ops : List PoolOp) (k : String)
    (hvalid : ValidOps (loadKeys ks) ops)
    (herr : statusOf (runOps (loadKeys ks) ops) k = some .error) :
    ∃ i, statusOf (runOps (loadKeys ks) (ops.take i)) k = some KeyStatus.in_use := by
  rcases runOps_error_origin ops (loadKeys ks) hvalid k herr with h | h
  · rcases statusOf_loadKeys ks k with h0 | h0 <;> rw [h0] at h <;> simp at h
  · exact h

/-- Witness for the amended C6: acquire then report; the credential was
`in_use` after the prefix of length one. -/
theorem faulty_preceded_by_in_use_witness :
    ∃ i, statusOf (runOps (loadKeys ["k1"])
        (([PoolOp.acquire "u" 10, PoolOp.report "k1" 20]).take i)) "k1"
      = some KeyStatus.in_use := by
  apply faulty_preceded_by_in_use ["k1"] [PoolOp.acquire "u" 10, PoolOp.report "k1" 20] "k1"
  · exact ⟨trivial,
      (by decide :
        statusOf (applyOp (loadKeys ["k1"]) (PoolOp.acquire "u" 10)) "k1"
          ≠ some KeyStatus.available),
      trivial⟩
  · decide

theorem inUseCount_cons (e : String × KeyState) (rest : Pool) (v : String) :
    inUseCount (e :: rest) v
      = (if isAffine v e then 1 else 0) + inUseCount rest v := by
  by_cases h : isAffine v e = true
  · simp [inUseCount, List.filter_cons, h, Nat.add_comm]
  · have h' : isAffine v e = false := by revert h; cases isAffine v e <;> simp
    simp [inUseCount, List.filter_cons, h']

theorem inUseCount_eq_zero (pool : Pool) (v : String)
    (hall : ∀ e ∈ pool, isAffine v e = false) : inUseCount pool v = 0 := by
  induction pool with
  | nil => rfl
  | cons e rest ih =>
    rw [inUseCount_cons, hall e (by simp)]
    simpa using ih (fun e' he' => hall e' (by simp [he']))

theorem setFirst_count_le (q : String × KeyState → Bool) (f : KeyState → KeyState)
    (pool : Pool) (v : String)
    (hf : ∀ (x : String) (st : KeyState), isAffine v (x, f st) = false) :
    inUseCount (setFirst q f pool) v ≤ inUseCount pool v := by
  induction pool with
  | nil => exact Nat.le_refl _
  | cons e rest ih =>
    by_cases hq : q e = true
    · have hstep : setFirst q f (e :: rest) = (e.1, f e.2) :: rest := by
        simp [setFirst, hq]
      rw [hstep, inUseCount_cons, inUseCount_cons, hf e.1 e.2]
      simp only [Bool.false_eq_true, if_false, Nat.zero_add]
      cases haf : isAffine v e
      · simp
      · simp [Nat.le_succ_of_le]
    · have hq' : q e = false := by revert hq; cases q e <;> simp
      have hstep : setFirst q f (e :: rest) = e :: setFirst q f rest := by
        simp [setFirst, hq']
      rw [hstep, inUseCount_cons, inUseCount_cons]
      exact Nat.add_le_add_left ih _

theorem setFirst_count_eq (q : String × KeyState → Bool) (f : KeyState → KeyState)
    (pool : Pool) (v : String)
    (hf : ∀ (x : String) (st : KeyState), isAffine v (x, f st) = isAffine v (x, st)) :
    inUseCount (setFirst q f pool) v = inUseCount pool v := by
  induction pool with
  | nil => rfl
  | cons e rest ih =>
    by_cases hq : q e = true
    · have hstep : setFirst q f (e :: rest) = (e.1, f e.2) :: rest := by
        simp [setFirst, hq]
      rw [hstep, inUseCount_cons, inUseCount_cons, hf e.1 e.2]
    · have hq' : q e = false := by revert hq; cases q e <;> simp
      have hstep : setFirst q f (e :: rest) = e :: setFirst q f rest := by
        simp [setFirst, hq']
      rw [hstep, inUseCount_cons, inUseCount_cons, ih]

theorem setFirst_count_le_one (q : String × KeyState → Bool) (f : KeyState → KeyState)
    (pool : Pool) (v : String)
    (hall : ∀ e ∈ pool, isAffine v e = false) :
    inUseCount (setFirst q f pool) v ≤ 1 := by
  induction pool with
  | nil => exact Nat.zero_le 1
  | cons e rest ih =>
    by_cases hq : q e = true
    · have hstep : setFirst q f (e :: rest) = (e.1, f e.2) :: rest := by
        simp [setFirst, hq]
      rw [hstep, inUseCount_cons,
        inUseCount_eq_zero rest v (fun e' he' => hall e' (by simp [he']))]
      cases haf : isAffine v (e.1, f e.2) <;> simp
    · have hq' : q e = false := by revert hq; cases q e <;> simp
      have hstep : setFirst q f (e :: rest) = e :: setFirst q f rest := by
        simp [setFirst, hq']
      rw [hstep, inUseCount_cons, hall e (by simp)]
      simpa using ih (fun e' he' => hall e' (by simp [he']))

theorem applyOp_at_most_one (pool : Pool) (op : PoolOp)
    (hinv : ∀ u, inUseCount pool u ≤ 1) :
    ∀ v, inUseCount (applyOp pool op) v ≤ 1 := by
  intro v
  cases op with
  | report k now =>
    have happ : applyOp pool (.report k now) = reportError pool k now := rfl
    rw [happ]
    unfold reportError
    by_cases h : pool.any (fun e => e.1 == k) = true
    · rw [if_pos h]
      refine Nat.le_trans (setFirst_count_le _ _ pool v ?_) (hinv v)
      intro x st
      simp [isAffine]
    · rw [if_neg h]; exact hinv v
  | acquire u now =>
    have happ : applyOp pool (.acquire u now) = (getKeyForUser pool u now).2 := rfl
    rw [happ]
    cases h1 : pool.find? (isAffine u) with
    | some e =>
      have hsnd : (getKeyForUser pool u now).2
          = setFirst (isAffine u) (fun st => { st with lastUsed := now }) pool := by
        unfold getKeyForUser
        rw [h1]
      rw [hsnd, setFirst_count_eq (isAffine u) (fun st => { st with lastUsed := now })
        pool v (fun x st => rfl)]
      exact hinv v
    | none =>
      cases h2 : pool.find? (isEligible now) with
      | some e =>
        have hsnd : (getKeyForUser pool u now).2
            = setFirst (isEligible now)
                (fun _st =>
                  { status := .in_use, user := some u, lastUsed := now, errorSince := 0 })
                pool := by
          unfold getKeyForUser
          rw [h1, h2]
        rw [hsnd]
        by_cases hvu : v = u
        · subst hvu
          refine setFirst_count_le_one _ _ pool v ?_
          intro e' he'
          have hne := List.find?_eq_none.mp h1 e' he'
          cases haf : isAffine v e'
          · rfl
          · exact absurd haf hne
        · refine Nat.le_trans (setFirst_count_le _ _ pool v ?_) (hinv v)
          intro x st
          simp [isAffine]
          intro hcontra
          exact absurd hcontra.symm hvu
      | none =>
        have hsnd : (getKeyForUser pool u now).2 = pool := by
          unfold getKeyForUser
          rw [h1, h2]
        rw [hsnd]
        exact hinv v

theorem runOps_at_most_one :
    ∀ (ops : List PoolOp) (pool : Pool),
      (∀ u, inUseCount pool u ≤ 1) → ∀ u, inUseCount (runOps pool ops) u ≤ 1 := by
  intro ops
  induction ops with
  | nil => intro pool h u; exact h u
  | cons op rest ih =>
    intro pool h u
    exact ih (applyOp pool op) (applyOp_at_most_one pool op h) u

/-- C7: in every pool state reachable from a freshly loaded pool by any
sequence of `acquire` and `release_on_error` operations, each caller has at
most one credential that is `in_use` and assigned to it. -/
theorem at_most_one_in_use_per_caller (ks : List String) (ops : List PoolOp) (u : String) :
    inUseCount (runOps (loadKeys ks) ops) u ≤ 1 := by
  refine runOps_at_most_one ops (loadKeys ks) ?_ u
  intro v
  have h0 : inUseCount (loadKeys ks) v = 0 := by
    refine inUseCount_eq_zero _ _ ?_
    intro e he
    have := loadKeys_state ks e he
    simp [isAffine, this, initialState]
  rw [h0]
  exact Nat.zero_le 1

end KeyPool

namespace SessionGuard

theorem incrementKeyUsage_of_split (pre : TokenDb) (r : KeyRecord) (post : TokenDb)
    (ip ua : String) (now : Int)
    (hpre : ∀ e ∈ pre, e.keyHash ≠ r.keyHash) :
    incrementKeyUsage (pre ++ r :: post) r.keyHash ip ua now
      = (some (updateRecord r ip ua now), pre ++ updateRecord r ip ua now :: post) := by
  induction pre with
  | nil => simp [incrementKeyUsage]
  | cons e rest ih =>
    have hne : (e.keyHash == r.keyHash) = false := by
      simpa using hpre e (by simp)
    simp [incrementKeyUsage, hne, ih (fun e' h' => hpre e' (by simp [h']))]

theorem authorize_allowed_inv (compare : String → String → Bool) (db : TokenDb)
    (cache : Cache) (token ip ua : String) (now : Int) (r1 : KeyRecord)
    (db1 : TokenDb) (cache1 : Cache)
    (h : authorize compare db cache token ip ua now = (.allowed r1, db1, cache1)) :
    ∃ pre r post, db = pre ++ r :: post
      ∧ (∀ e ∈ pre, compare token e.keyHash = false)
      ∧ compare token r.keyHash = true
      ∧ r1 = updateRecord r ip ua now
      ∧ db1 = pre ++ r1 :: post
      ∧ cache1 = cacheSet cache token r1 := by
  unfold authorize at h
  cases hval : findAndValidateKey compare db token with
  | none => rw [hval] at h; simp at h
  | some keyData =>
    rw [hval] at h
    dsimp only at h
    have hval' : List.find? (fun rec => compare token rec.keyHash) db = some keyData := hval
    obtain ⟨pre, post, hdb, hpre, hcmp⟩ :=
      find_eq_some_split (fun rec => compare token rec.keyHash) db keyData hval'
    have hpre' : ∀ e ∈ pre, e.keyHash ≠ keyData.keyHash := by
      intro e he hcontra
      have hfe := hpre e he
      rw [hcontra, hcmp] at hfe
      exact Bool.noConfusion hfe
    have hinc := incrementKeyUsage_of_split pre keyData post ip ua now hpre'
    rw [hdb] at h
    by_cases hexp : now > keyData.expirationDate
    · rw [if_pos hexp] at h
      simp at h
    · rw [if_neg hexp] at h
      by_cases hlock : (isLocked keyData now && isDifferentDevice keyData ip ua) = true
      · rw [if_pos hlock] at h
        simp at h
      · rw [if_neg hlock] at h
        rw [hinc] at h
        dsimp only at h
        simp only [Prod.mk.injEq, AuthResult.allowed.injEq] at h
        obtain ⟨hres, hdb1, hcache1⟩ := h
        refine ⟨pre, keyData, post, hdb, hpre, hcmp, hres.symm, ?_, ?_⟩
        · rw [← hdb1, hres]
        · rw [← hcache1, hres]

/-- C4: a token that validates but whose stored `expirationDate` is strictly
in the past is rejected with `Expired`, for every request fingerprint and
whatever the record's usage and lock state are; nothing after the expiry
check is consulted. -/
theorem expired_always_rejected (compare : String → String → Bool) (db : TokenDb)
    (cache : Cache) (token ip ua : String) (now : Int) (r : KeyRecord)
    (hval : findAndValidateKey compare db token = some r)
    (hexp : now > r.expirationDate) :
    (authorize compare db cache token ip ua now).1 = .expired := by
  unfold authorize
  rw [hval]
  dsimp only
  rw [if_pos hexp]

/-- Witness for C4: an expired record with a live lock window and a matching
fingerprint is still rejected as expired. -/
theorem expired_always_rejected_witness :
    (authorize sampleCompare [updateRecord sampleRecord "ip1" "ua1" 999999] []
      "tok" "ip1" "ua1" 1000001).1 = .expired :=
  expired_always_rejected sampleCompare [updateRecord sampleRecord "ip1" "ua1" 999999] []
    "tok" "ip1" "ua1" 1000001 (updateRecord sampleRecord "ip1" "ua1" 999999)
    (by decide) (by decide)

/-- C3: after a first `authorize` call is allowed at time `t1` from
fingerprint `(ip1, ua1)`, a second call with the same still-valid token
within `LOCK_DURATION` from a fingerprint differing in either component is
rejected with `DeviceConflict`. -/
theorem second_device_conflict (compare : String → String → Bool) (db : TokenDb)
    (cache : Cache) (token ip1 ua1 ip2 ua2 : String) (t1 t2 : Int)
    (r1 : KeyRecord) (db1 : TokenDb) (cache1 : Cache)
    (h1 : authorize compare db cache token ip1 ua1 t1 = (.allowed r1, db1, cache1))
    (hwin : t2 - t1 < LOCK_DURATION)
    (hexp : ¬ t2 > r1.expirationDate)
    (hdiff : ip2 ≠ ip1 ∨ ua2 ≠ ua1) :
    (authorize compare db1 cache1 token ip2 ua2 t2).1 = .deviceConflict := by
  obtain ⟨pre, r, post, hdb, hpre, hcmp, hr1, hdb1, hcache1⟩ :=
    authorize_allowed_inv compare db cache token ip1 ua1 t1 r1 db1 cache1 h1
  have hval2 : findAndValidateKey compare db1 token = some r1 := by
    rw [hdb1]
    refine find_first_of_split (fun rec => compare token rec.keyHash) pre r1 post hpre ?_
    rw [hr1]
    exact hcmp
  have hlocked : isLocked r1 t2 = true := by
    rw [hr1]
    unfold isLocked updateRecord
    exact decide_eq_true hwin
  have hdiffdev : isDifferentDevice r1 ip2 ua2 = true := by
    have hform : isDifferentDevice r1 ip2 ua2
        = (!(some ip1 == some ip2) || !(some ua1 == some ua2)) := by
      rw [hr1]
      rfl
    rw [hform]
    rcases hdiff with hip | hua
    · have h' : (some ip1 == some ip2 : Bool) = false := by
        simp
        exact fun hc => hip hc.symm
      rw [h']
      rfl
    · have h' : (some ua1 == some ua2 : Bool) = false := by
        simp
        exact fun hc => hua hc.symm
      rw [h']
      simp
  unfold authorize
  rw [hval2]
  dsimp only
  rw [if_neg hexp, hlocked, hdiffdev]
  rfl

/-- Witness for C3: a concrete first call from `(ip1, ua1)` followed by a
call from `(ip2, ua1)` within the lock window. -/
theorem second_device_conflict_witness :
    (authorize sampleCompare [updateRecord sampleRecord "ip1" "ua1" 100]
      (cacheSet [] "tok" (updateRecord sampleRecord "ip1" "ua1" 100))
      "tok" "ip2" "ua1" 200).1 = .deviceConflict :=
  second_device_conflict sampleCompare [sampleRecord] [] "tok" "ip1" "ua1" "ip2" "ua1"
    100 200 (updateRecord sampleRecord "ip1" "ua1" 100)
    [updateRecord sampleRecord "ip1" "ua1" 100]
    (cacheSet [] "tok" (updateRecord sampleRecord "ip1" "ua1" 100))
    (by decide) (by decide) (by decide) (Or.inl (by decide))

/-- C8: `authorize` bumps the stored record's `requestCount` by exactly one
and rewrites its usage fingerprint and timestamp, refreshing the side cache,
exactly when it returns `Allowed`; on every rejection (`invalidToken`,
`expired`, `deviceConflict`) the token database and the side cache are
returned unchanged. -/
theorem usage_updated_iff_allowed (compare : String → String → Bool) (db : TokenDb)
    (cache : Cache) (token ip ua : String) (now : Int) (res : AuthResult)
    (db1 : TokenDb) (cache1 : Cache)
    (h : authorize compare db cache token ip ua now = (res, db1, cache1)) :
    (∀ r1, res = .allowed r1 →
      ∃ pre r post, db = pre ++ r :: post
        ∧ r1 = updateRecord r ip ua now
        ∧ r1.requestCount = r.requestCount + 1
        ∧ db1 = pre ++ r1 :: post
        ∧ cache1 = cacheSet cache token r1)
    ∧ ((∀ r1, res ≠ .allowed r1) → db1 = db ∧ cache1 = cache) := by
  constructor
  · intro r1 hres
    have h' : authorize compare db cache token ip ua now = (.allowed r1, db1, cache1) := by
      rw [← hres]
      exact h
    obtain ⟨pre, r, post, hdb, hpre, hcmp, hr1, hdb1, hcache1⟩ :=
      authorize_allowed_inv compare db cache token ip ua now r1 db1 cache1 h'
    refine ⟨pre, r, post, hdb, hr1, ?_, hdb1, hcache1⟩
    rw [hr1]
    rfl
  · intro hne
    unfold authorize at h
    cases hval : findAndValidateKey compare db token with
    | none =>
      rw [hval] at h
      dsimp only at h
      simp only [Prod.mk.injEq] at h
      exact ⟨h.2.1.symm, h.2.2.symm⟩
    | some keyData =>
      rw [hval] at h
      dsimp only at h
      by_cases hexp : now > keyData.expirationDate
      · rw [if_pos hexp] at h
        simp only [Prod.mk.injEq] at h
        exact ⟨h.2.1.symm, h.2.2.symm⟩
      · rw [if_neg hexp] at h
        by_cases hlock : (isLocked keyData now && isDifferentDevice keyData ip ua) = true
        · rw [if_pos hlock] at h
          simp only [Prod.mk.injEq] at h
          exact ⟨h.2.1.symm, h.2.2.symm⟩
        · rw [if_neg hlock] at h
          cases hstep : incrementKeyUsage db keyData.keyHash ip ua now with
          | mk fst snd =>
            rw [hstep] at h
            cases fst with
            | some updated =>
              dsimp only at h
              simp only [Prod.mk.injEq] at h
              exact absurd h.1.symm (hne updated)
            | none =>
              dsimp only at h
              simp only [Prod.mk.injEq] at h
              exact absurd h.1.symm (hne keyData)

/-- Witness for C8: the allowed direction at a concrete one-record store. -/
theorem usage_updated_iff_allowed_witness :
    ∃ pre r post, [sampleRecord] = pre ++ r :: post
      ∧ updateRecord sampleRecord "ip1" "ua1" 100 = updateRecord r "ip1" "ua1" 100
      ∧ (updateRecord sampleRecord "ip1" "ua1" 100).requestCount = r.requestCount + 1
      ∧ [updateRecord sampleRecord "ip1" "ua1" 100]
          = pre ++ updateRecord sampleRecord "ip1" "ua1" 100 :: post
      ∧ cacheSet [] "tok" (updateRecord sampleRecord "ip1" "ua1" 100)
          = cacheSet [] "tok" (updateRecord sampleRecord "ip1" "ua1" 100) :=
  (usage_updated_iff_allowed sampleCompare [sampleRecord] [] "tok" "ip1" "ua1" 100
    (.allowed (updateRecord sampleRecord "ip1" "ua1" 100))
    [updateRecord sampleRecord "ip1" "ua1" 100]
    (cacheSet [] "tok" (updateRecord sampleRecord "ip1" "ua1" 100))
    (by decide)).1 (updateRecord sampleRecord "ip1" "ua1" 100) rfl

end SessionGuard
